import Mathlib

/-!
Verification of the transcript-extraction and grade-aggregation engine of
`app.py` (repository `shagyeeen/cgpa-shyne`).

The Python code drives everything off `re` patterns, so the embedding first
builds a small backtracking regular-expression engine with Python `re`
semantics (leftmost match, greedy/lazy quantifier preference, depth-first
alternation, word boundaries, capture groups), then translates each function
of `app.py` (`extract_student_details`, `extract_semester`,
`extract_subjects`, `calculate_sgpa`, and the aggregation loop of the
`/generate` route) on top of it.
-/

namespace CgpaShyne

/-! ### Character classes used by the patterns of `app.py` -/

/-- Python `\s` for the ASCII range: space, tab, newline, carriage return,
vertical tab, form feed. -/
def isPySpace (c : Char) : Bool :=
  c == ' ' || c == '\t' || c == '\n' || c == '\r' || c == '\x0b' || c == '\x0c'

/-- Python `\d`. -/
def isPyDigit (c : Char) : Bool := '0' ≤ c && c ≤ '9'

/-- Python `\w` for the ASCII range: letters, digits, underscore. -/
def isPyWord (c : Char) : Bool :=
  ('A' ≤ c && c ≤ 'Z') || ('a' ≤ c && c ≤ 'z') || ('0' ≤ c && c ≤ '9') || c == '_'

/-- ASCII lower-casing, used to model `re.IGNORECASE`. -/
def lowerC (c : Char) : Char :=
  if 'A' ≤ c && c ≤ 'Z' then Char.ofNat (c.toNat + 32) else c

/-! ### Regular-expression abstract syntax -/

/-- Abstract syntax of the fragment of Python regexes used by `app.py`:
character classes, concatenation, prioritized alternation, capture groups,
counted greedy/lazy repetition and the zero-width word-boundary assertion
`\b`.  In `rep greedy lo hi r`, `lo` is the number of mandatory iterations
still owed and `hi` the optional total bound (`none` = unbounded). -/
inductive RE : Type
  | eps : RE
  | cls : (Char → Bool) → RE
  | seq : RE → RE → RE
  | alt : RE → RE → RE
  | grp : Nat → RE → RE
  | rep : Bool → Nat → Option Nat → RE → RE
  | wordB : RE

/-- Decrement an optional repetition bound. -/
def predO : Option Nat → Option Nat
  | none => none
  | some m => some (m - 1)

/-- The capture groups syntactically contained in a regex, with their bodies. -/
def grpsOf : RE → List (Nat × RE)
  | .eps => []
  | .cls _ => []
  | .seq r1 r2 => grpsOf r1 ++ grpsOf r2
  | .alt r1 r2 => grpsOf r1 ++ grpsOf r2
  | .grp g r => (g, r) :: grpsOf r
  | .rep _ _ _ r => grpsOf r
  | .wordB => []

/-- Node count of a regex, used only to budget matcher fuel. -/
def sizeRE : RE → Nat
  | .eps => 1
  | .cls _ => 1
  | .seq r1 r2 => sizeRE r1 + sizeRE r2 + 1
  | .alt r1 r2 => sizeRE r1 + sizeRE r2 + 1
  | .grp _ r => sizeRE r + 1
  | .rep _ _ _ r => sizeRE r + 1
  | .wordB => 1

/-- Is position `i` of `inp` on a word character?  Out-of-range positions are
not word characters, matching Python's treatment of the string edges. -/
def wordAt (inp : List Char) (i : Nat) : Bool :=
  match inp[i]? with
  | some c => isPyWord c
  | none => false

/-- Python `\b`: a word boundary sits at `i` iff exactly one side of the
position is a word character. -/
def wordBoundary (inp : List Char) (i : Nat) : Bool :=
  if i = 0 then wordAt inp 0 else wordAt inp (i - 1) != wordAt inp i

/-- A recorded capture: group index, start position, end position. -/
abbrev Caps := List (Nat × Nat × Nat)

/-- Backtracking matcher in continuation-passing style, mirroring Python's
`re` engine on the constructs above: alternation prefers its left arm,
greedy repetition prefers one more iteration, lazy repetition prefers
exiting.  `fuel` only bounds recursion depth; every claim proved about the
matcher holds for every fuel value, and concrete runs use an ample budget. -/
def mrun {σ : Type} (inp : List Char) (fuel : Nat) (r : RE) (i : Nat) (cp : Caps)
    (k : Nat → Caps → Option σ) : Option σ :=
  match fuel, r with
  | 0, _ => none
  | _ + 1, .eps => k i cp
  | _ + 1, .wordB => if wordBoundary inp i then k i cp else none
  | _ + 1, .cls p =>
    match inp[i]? with
    | some c => if p c then k (i + 1) cp else none
    | none => none
  | fuel + 1, .seq r1 r2 =>
    mrun inp fuel r1 i cp (fun j cp2 => mrun inp fuel r2 j cp2 k)
  | fuel + 1, .alt r1 r2 =>
    match mrun inp fuel r1 i cp k with
    | some res => some res
    | none => mrun inp fuel r2 i cp k
  | fuel + 1, .grp g r1 =>
    mrun inp fuel r1 i cp (fun j cp2 => k j ((g, i, j) :: cp2))
  | fuel + 1, .rep gr lo hi r1 =>
    if hi = some 0 then (if lo = 0 then k i cp else none)
    else if lo = 0 then
      if gr then
        match mrun inp fuel r1 i cp
            (fun j cp2 => mrun inp fuel (.rep gr 0 (predO hi) r1) j cp2 k) with
        | some res => some res
        | none => k i cp
      else
        match k i cp with
        | some res => some res
        | none =>
          mrun inp fuel r1 i cp
            (fun j cp2 => mrun inp fuel (.rep gr 0 (predO hi) r1) j cp2 k)
    else
      mrun inp fuel r1 i cp
        (fun j cp2 => mrun inp fuel (.rep gr (lo - 1) (predO hi) r1) j cp2 k)

/-- Fuel budget amply covering any backtracking path of `mrun` on `inp`:
along one path every recursion level either descends into the pattern or
completes a repetition iteration that consumed input. -/
def bigFuel (r : RE) (inp : List Char) : Nat :=
  (inp.length + 2) * (sizeRE r + 2)

/-- Declarative counterpart of `mrun`: `CanM inp r i j` holds when `r` can
consume exactly the characters of positions `[i, j)` of `inp`. -/
inductive CanM (inp : List Char) : RE → Nat → Nat → Prop
  | eps {i : Nat} : CanM inp .eps i i
  | wordB {i : Nat} : wordBoundary inp i = true → CanM inp .wordB i i
  | cls {p : Char → Bool} {i : Nat} {c : Char} :
      inp[i]? = some c → p c = true → CanM inp (.cls p) i (i + 1)
  | seqm {r1 r2 : RE} {i j l : Nat} :
      CanM inp r1 i j → CanM inp r2 j l → CanM inp (.seq r1 r2) i l
  | altl {r1 r2 : RE} {i j : Nat} : CanM inp r1 i j → CanM inp (.alt r1 r2) i j
  | altr {r1 r2 : RE} {i j : Nat} : CanM inp r2 i j → CanM inp (.alt r1 r2) i j
  | grpm {g : Nat} {r : RE} {i j : Nat} : CanM inp r i j → CanM inp (.grp g r) i j
  | rep0 {gr : Bool} {hi : Option Nat} {r : RE} {i : Nat} :
      CanM inp (.rep gr 0 hi r) i i
  | repS {gr : Bool} {lo : Nat} {hi : Option Nat} {r : RE} {i j l : Nat} :
      hi ≠ some 0 → CanM inp r i j →
      CanM inp (.rep gr (lo - 1) (predO hi) r) j l →
      CanM inp (.rep gr lo hi r) i l

/-- A capture entry is sound for regex `r` when it belongs to one of `r`'s
groups and its span is matchable by that group's body. -/
def EntryOK (inp : List Char) (r : RE) (e : Nat × Nat × Nat) : Prop :=
  ∃ b, (e.1, b) ∈ grpsOf r ∧ CanM inp b e.2.1 e.2.2

/-! ### Search and findall drivers, mirroring `re.search` and `re.findall` -/

/-- Try a full match of `r` at position `i`, returning the end position and
the captures. -/
def matchAt (r : RE) (inp : List Char) (i : Nat) : Option (Nat × Caps) :=
  mrun inp (bigFuel r inp) r i [] (fun j cp => some (j, cp))

/-- `re.search`: scan start positions left to right, return the captures of
the first (leftmost) match. -/
def reSearchAux (r : RE) (inp : List Char) : Nat → Nat → Option Caps
  | 0, _ => none
  | f + 1, i =>
    match matchAt r inp i with
    | some (_, cp) => some cp
    | none => if i < inp.length then reSearchAux r inp f (i + 1) else none

/-- `re.search` on a character list. -/
def reSearch (r : RE) (inp : List Char) : Option Caps :=
  reSearchAux r inp (inp.length + 2) 0

/-- `re.findall`: non-overlapping matches scanned left to right, resuming
after each match (advancing by one position on an empty match). -/
def reFindallAux (r : RE) (inp : List Char) : Nat → Nat → List Caps
  | 0, _ => []
  | f + 1, i =>
    if i > inp.length then []
    else
      match matchAt r inp i with
      | some (j, cp) => cp :: reFindallAux r inp f (max (i + 1) j)
      | none => reFindallAux r inp f (i + 1)

/-- `re.findall` on a character list, one capture record per match. -/
def reFindall (r : RE) (inp : List Char) : List Caps :=
  reFindallAux r inp (inp.length + 2) 0

/-! ### Strings, slices and the small helpers the Python code uses -/

/-- The substring of `inp` covering positions `[s, t)`, as Python's
`text[s:t]`. -/
def sliceStr (inp : List Char) (s t : Nat) : String :=
  String.mk ((inp.take t).drop s)

/-- Read capture group `g` out of a capture record (Python `m.group(g)`). -/
def capStr (inp : List Char) (cp : Caps) (g : Nat) : Option String :=
  (cp.find? (fun e => e.1 == g)).map (fun e => sliceStr inp e.2.1 e.2.2)

/-- Python `int` on a nonempty string of decimal digits. -/
def digitsToNat (s : String) : Nat :=
  s.data.foldl (fun a c => 10 * a + (c.toNat - 48)) 0

/-- Python `str.strip()` (default whitespace stripping). -/
def pyStrip (s : String) : String :=
  String.mk (((s.data.dropWhile isPySpace).reverse.dropWhile isPySpace).reverse)

/-- Python `s[-5:]`: the last five characters (all of `s` when shorter). -/
def pyLast5 (s : String) : String :=
  String.mk (s.data.drop (s.data.length - 5))

/-- A literal pattern: one character class per character of `s`;
case-insensitive when `ci` is set (`re.IGNORECASE`). -/
def litRE (ci : Bool) (s : String) : RE :=
  s.data.foldr (fun c acc => .seq (.cls (fun d => if ci then lowerC d == lowerC c else d == c)) acc) .eps

/-! ### The concrete patterns of `app.py` -/

/-- Character class `[A-Z0-9]` (subject-code characters). -/
def codeCl (c : Char) : Bool := ('A' ≤ c && c ≤ 'Z') || isPyDigit c

/-- Character class `[A-Za-z0-9 +().,:/\-]` (subject-name characters). -/
def nameCl (c : Char) : Bool :=
  ('A' ≤ c && c ≤ 'Z') || ('a' ≤ c && c ≤ 'z') || isPyDigit c ||
  c == ' ' || c == '+' || c == '(' || c == ')' || c == '.' || c == ',' ||
  c == ':' || c == '/' || c == '-'

/-- Character class `[OABC]` (first character of a grade token). -/
def gradeCl (c : Char) : Bool := c == 'O' || c == 'A' || c == 'B' || c == 'C'

/-- Character class `[+]`. -/
def plusCl (c : Char) : Bool := c == '+'

/-- Character class `[A-Z ]` under `re.IGNORECASE` (candidate-name characters). -/
def candCl (c : Char) : Bool := ('A' ≤ c && c ≤ 'Z') || ('a' ≤ c && c ≤ 'z') || c == ' '

/-- Character class `[A-Z0-9]` under `re.IGNORECASE` (register-number characters). -/
def alnumCiCl (c : Char) : Bool :=
  ('A' ≤ c && c ≤ 'Z') || ('a' ≤ c && c ≤ 'z') || isPyDigit c

/-- Character class `[A-Z]` (no `IGNORECASE`). -/
def upperCl (c : Char) : Bool := 'A' ≤ c && c ≤ 'Z'

/-- `\s+`. -/
def wsP : RE := .rep true 1 none (.cls isPySpace)

/-- Group 1 body of the subject pattern: `[A-Z0-9]{5,7}`. -/
def codeBody : RE := .rep true 5 (some 7) (.cls codeCl)

/-- Group 2 body of the subject pattern: `[A-Za-z0-9 +().,:/\-]+?`. -/
def nameBody : RE := .rep false 1 none (.cls nameCl)

/-- Group 3 body of the subject pattern: `(\d)`. -/
def digitBody : RE := .cls isPyDigit

/-- Group 4 body of the subject pattern: `[OABC][+]?`. -/
def gradeBody : RE := .seq (.cls gradeCl) (.rep true 0 (some 1) (.cls plusCl))

/-- `extract_subjects`' pattern,
`([A-Z0-9]{5,7})\s+([A-Za-z0-9 +().,:/\-]+?)\s+(\d)\s+([OABC][+]?)`. -/
def subjectPattern : RE :=
  .seq (.grp 1 codeBody)
    (.seq wsP
      (.seq (.grp 2 nameBody)
        (.seq wsP
          (.seq (.grp 3 digitBody)
            (.seq wsP (.grp 4 gradeBody))))))

/-- `extract_semester`'s first pattern, `\bSEMESTER\s+(\d+)` with
`re.IGNORECASE`. -/
def semLabelPattern : RE :=
  .seq .wordB
    (.seq (litRE true "SEMESTER")
      (.seq wsP (.grp 1 (.rep true 1 none (.cls isPyDigit)))))

/-- `extract_semester`'s fallback pattern, `\b\d{2}[A-Z]{2}(\d)\d{2}\b`. -/
def semCodePattern : RE :=
  .seq .wordB
    (.seq (.rep true 2 (some 2) (.cls isPyDigit))
      (.seq (.rep true 2 (some 2) (.cls upperCl))
        (.seq (.grp 1 (.cls isPyDigit))
          (.seq (.rep true 2 (some 2) (.cls isPyDigit)) .wordB))))

/-- `extract_student_details`' name pattern,
`Name of the Candidate\s+([A-Z ]+?)(?:\s+Month|\s+Date|\n)` with
`re.IGNORECASE`. -/
def candNamePattern : RE :=
  .seq (litRE true "Name of the Candidate")
    (.seq wsP
      (.seq (.grp 1 (.rep false 1 none (.cls candCl)))
        (.alt (.seq wsP (litRE true "Month"))
          (.alt (.seq wsP (litRE true "Date")) (.cls (fun c => c == '\n'))))))

/-- `extract_student_details`' register pattern, `Register No\s+([A-Z0-9]+)`
with `re.IGNORECASE`. -/
def regNoPattern : RE :=
  .seq (litRE true "Register No")
    (.seq wsP (.grp 1 (.rep true 1 none (.cls alnumCiCl))))

/-! ### The extraction functions of `app.py` -/

/-- A row extracted by `extract_subjects`: subject code (last five
characters), trimmed name, single-digit credit, grade token. -/
structure SubjectRecord where
  code : String
  name : String
  credit : Nat
  grade : String
deriving DecidableEq, Repr

/-- The record built from one `re.findall` match of the subject pattern
(`app.py` lines 78–84): code truncated to its trailing five characters,
stripped name, credit digit as an integer, grade token.  All four groups are
mandatory parts of the pattern, so the lookups never miss on a successful
match. -/
def subjectOfCaps (inp : List Char) (cp : Caps) : Option SubjectRecord :=
  match capStr inp cp 1, capStr inp cp 2, capStr inp cp 3, capStr inp cp 4 with
  | some code, some nm, some cr, some gr =>
    some { code := pyLast5 code, name := pyStrip nm,
           credit := digitsToNat cr, grade := gr }
  | _, _, _, _ => none

/-- `extract_subjects` (`app.py` lines 73–85): `re.findall` of the subject
pattern, one record per match, in order of appearance. -/
def extract_subjects (text : String) : List SubjectRecord :=
  (reFindall subjectPattern text.data).filterMap (subjectOfCaps text.data)

/-- `extract_semester` (`app.py` lines 58–69): explicit `SEMESTER <digits>`
label first, otherwise the fourth character of a subject-code-shaped token;
`None` when neither pattern matches. -/
def extract_semester (text : String) : Option Int :=
  match reSearch semLabelPattern text.data with
  | some cp =>
    match capStr text.data cp 1 with
    | some ds => some (digitsToNat ds : Int)
    | none => none
  | none =>
    match reSearch semCodePattern text.data with
    | some cp =>
      match capStr text.data cp 1 with
      | some ds => some (digitsToNat ds : Int)
      | none => none
    | none => none

/-- `extract_student_details` (`app.py` lines 32–54): `(name, register)` with
placeholder defaults `"Student Name"` / `"Register No"` when the respective
search misses. -/
def extract_student_details (text : String) : String × String :=
  (match reSearch candNamePattern text.data with
    | some cp =>
      match capStr text.data cp 1 with
      | some s => pyStrip s
      | none => "Student Name"
    | none => "Student Name",
   match reSearch regNoPattern text.data with
    | some cp =>
      match capStr text.data cp 1 with
      | some s => pyStrip s
      | none => "Register No"
    | none => "Register No")

/-! ### Grade points and the SGPA computation -/

/-- The `GRADE_POINTS` table of `app.py` (lines 15–18). -/
def GRADE_POINTS : List (String × Nat) :=
  [("O", 10), ("A+", 9), ("A", 8), ("B+", 7), ("B", 6), ("C", 5), ("U", 0)]

/-- `GRADE_POINTS.get(grade, 0)`: table lookup defaulting to 0 points. -/
def gradeLookup (g : String) : Nat :=
  ((GRADE_POINTS.find? (fun p => p.1 == g)).map Prod.snd).getD 0

/-- Round-half-to-even on a rational, as Python's `round` on the exact value. -/
def roundHalfEven (x : ℚ) : ℤ :=
  let f := x.floor
  let r := x - (f : ℚ)
  if r < 1 / 2 then f
  else if 1 / 2 < r then f + 1
  else if f % 2 = 0 then f else f + 1

/-- Python `round(x, 2)`. -/
def pyRound2 (x : ℚ) : ℚ := (roundHalfEven (x * 100) : ℚ) / 100

/-- `calculate_sgpa` (`app.py` lines 89–103): fold over the subjects skipping
`credit == 0` rows, then `round(points / credits, 2)` when the credit sum is
nonzero and `0` otherwise.  Returns `(sgpa, total_credits, total_points)` in
the Python order. -/
def calculate_sgpa (subjects : List SubjectRecord) : ℚ × Nat × Nat :=
  let totals := subjects.foldl
    (fun (acc : Nat × Nat) s =>
      if s.credit = 0 then acc
      else (acc.1 + gradeLookup s.grade * s.credit, acc.2 + s.credit))
    (0, 0)
  let sgpa : ℚ :=
    if totals.2 ≠ 0 then pyRound2 ((totals.1 : ℚ) / (totals.2 : ℚ)) else 0
  (sgpa, totals.2, totals.1)

/-! ### The aggregation loop of the `/generate` route -/

/-- One value of `semester_map` (`app.py` lines 216–222). -/
structure SemRec where
  no : Int
  sgpa : ℚ
  subjects : List SubjectRecord
  credits : Nat
  points : Nat
deriving DecidableEq, Repr

/-- The record stored in `semester_map` for a document of term `sem` with
text `text` (`app.py` lines 213–222). -/
def docTermRecord (sem : Int) (text : String) : SemRec :=
  let subs := extract_subjects text
  let res := calculate_sgpa subs
  { no := sem, sgpa := res.1, subjects := subs,
    credits := res.2.1, points := res.2.2 }

/-- Python `dict` update `m[k] = v`: replace in place when the key exists,
append otherwise (insertion order preserved). -/
def dictUpd (m : List (Int × SemRec)) (k : Int) (v : SemRec) : List (Int × SemRec) :=
  if m.any (fun p => p.1 == k) then
    m.map (fun p => if p.1 == k then (k, v) else p)
  else m ++ [(k, v)]

/-- One iteration of the document loop (`app.py` lines 202–222): identity is
overwritten unconditionally; a document whose term is unresolved contributes
nothing to the map. -/
def foldStep (st : (String × String) × List (Int × SemRec)) (text : String) :
    (String × String) × List (Int × SemRec) :=
  let ident := extract_student_details text
  match extract_semester text with
  | none => (ident, st.2)
  | some sem => (ident, dictUpd st.2 sem (docTermRecord sem text))

/-- Stable insertion into a list sorted ascending by `no`. -/
def insNo (x : SemRec) : List SemRec → List SemRec
  | [] => [x]
  | y :: ys => if x.no < y.no then x :: y :: ys else y :: insNo x ys

/-- `sorted(semester_map.values(), key=lambda x: x["no"])`. -/
def sortByNo : List SemRec → List SemRec
  | [] => []
  | x :: xs => insNo x (sortByNo xs)

/-- The structured result the `/generate` route hands to the certificate
renderer: identity, CGPA, and the per-semester records. -/
structure Summary where
  name : String
  reg : String
  cgpa : ℚ
  semesters : List SemRec
deriving DecidableEq, Repr

/-- The term map accumulated by the document loop of `generate`
(`app.py` lines 198–222) over a batch of document texts. -/
def termMapOf (texts : List String) : List (Int × SemRec) :=
  (texts.foldl foldStep (("Student Name", "Register No"), [])).2

/-- The `/generate` route's aggregation (`app.py` lines 194–237), from the
extracted document texts to the structure passed to `generate_certificate`:
last document's identity, sorted semester records, and
`round(grand_points / grand_credits, 2)` (or `0` on zero credits). -/
def generateSummary (texts : List String) : Summary :=
  let st := texts.foldl foldStep (("Student Name", "Register No"), [])
  let semesters := sortByNo (st.2.map Prod.snd)
  let grand_points : Nat := (semesters.map (fun s => s.points)).sum
  let grand_credits : Nat := (semesters.map (fun s => s.credits)).sum
  let cgpa : ℚ :=
    if grand_credits ≠ 0 then pyRound2 ((grand_points : ℚ) / (grand_credits : ℚ))
    else 0
  { name := st.1.1, reg := st.1.2, cgpa := cgpa, semesters := semesters }

/-- The last document of `texts` (in processing order) whose term resolves to
`t`; by the replace-on-collision rule this document owns term `t`'s record. -/
def lastResolver (t : Int) (texts : List String) : Option String :=
  (texts.filter (fun x => extract_semester x == some t)).getLast?

/-! ### Soundness of the matcher's captures -/

theorem entryOK_sub {inp : List Char} {r r' : RE} {e : Nat × Nat × Nat}
    (h : EntryOK inp r e) (hs : ∀ p ∈ grpsOf r, p ∈ grpsOf r') :
    EntryOK inp r' e := by
  obtain ⟨b, hb, hc⟩ := h
  exact ⟨b, hs _ hb, hc⟩

/-- Whenever `mrun` succeeds, the continuation was invoked at a position the
regex can reach, and every capture entry added on the way is the span of one
of the regex's groups, matchable by that group's body. -/
theorem mrun_sound {σ : Type} (inp : List Char) :
    ∀ (f : Nat) (r : RE) (i : Nat) (cp : Caps) (k : Nat → Caps → Option σ) (res : σ),
      mrun inp f r i cp k = some res →
      ∃ j new, k j (new ++ cp) = some res ∧
        (∀ e ∈ new, EntryOK inp r e) ∧ CanM inp r i j := by
  intro f
  induction f with
  | zero =>
    intro r i cp k res h
    simp [mrun] at h
  | succ f ih =>
    intro r i cp k res h
    cases r with
    | eps =>
      simp only [mrun] at h
      exact ⟨i, [], by simpa using h, by simp, CanM.eps⟩
    | wordB =>
      simp only [mrun] at h
      split at h
      · next hb => exact ⟨i, [], by simpa using h, by simp, CanM.wordB hb⟩
      · exact absurd h (by simp)
    | cls p =>
      simp only [mrun] at h
      cases hg : inp[i]? with
      | none => rw [hg] at h; exact absurd h (by simp)
      | some c =>
        rw [hg] at h
        simp at h
        exact ⟨i + 1, [], by simpa using h.2, by simp, CanM.cls hg (by simpa using h.1)⟩
    | seq r1 r2 =>
      simp only [mrun] at h
      obtain ⟨j1, new1, hk1, hok1, hm1⟩ := ih r1 i cp _ res h
      obtain ⟨j2, new2, hk2, hok2, hm2⟩ := ih r2 j1 (new1 ++ cp) k res hk1
      refine ⟨j2, new2 ++ new1, by simpa [List.append_assoc] using hk2, ?_, CanM.seqm hm1 hm2⟩
      intro e he
      rcases List.mem_append.mp he with h2 | h1
      · exact entryOK_sub (hok2 e h2) (by intro p hp; simp [grpsOf]; exact Or.inr hp)
      · exact entryOK_sub (hok1 e h1) (by intro p hp; simp [grpsOf]; exact Or.inl hp)
    | alt r1 r2 =>
      simp only [mrun] at h
      cases hx : mrun inp f r1 i cp k with
      | some v =>
        rw [hx] at h
        simp only [Option.some.injEq] at h
        subst h
        obtain ⟨j1, new1, hk1, hok1, hm1⟩ := ih r1 i cp k _ hx
        refine ⟨j1, new1, hk1, ?_, CanM.altl hm1⟩
        intro e he
        exact entryOK_sub (hok1 e he) (by intro p hp; simp [grpsOf]; exact Or.inl hp)
      | none =>
        rw [hx] at h
        simp at h
        obtain ⟨j2, new2, hk2, hok2, hm2⟩ := ih r2 i cp k res h
        refine ⟨j2, new2, hk2, ?_, CanM.altr hm2⟩
        intro e he
        exact entryOK_sub (hok2 e he) (by intro p hp; simp [grpsOf]; exact Or.inr hp)
    | grp g r1 =>
      simp only [mrun] at h
      obtain ⟨j1, new1, hk1, hok1, hm1⟩ := ih r1 i cp _ res h
      refine ⟨j1, (g, i, j1) :: new1, by simpa using hk1, ?_, CanM.grpm hm1⟩
      intro e he
      rcases List.mem_cons.mp he with he1 | he2
      · subst he1
        exact ⟨r1, by simp [grpsOf], hm1⟩
      · exact entryOK_sub (hok1 e he2) (by intro p hp; simp [grpsOf]; exact Or.inr hp)
    | rep gr lo hi r1 =>
      simp only [mrun] at h
      split at h
      · next h0 =>
        split at h
        · next hlo =>
          subst hlo
          exact ⟨i, [], by simpa using h, by simp, CanM.rep0⟩
        · exact absurd h (by simp)
      · next h0 =>
        split at h
        · next hlo =>
          subst hlo
          cases gr with
          | true =>
            rw [if_pos rfl] at h
            cases hx : mrun inp f r1 i cp
                (fun j cp2 => mrun inp f (.rep true 0 (predO hi) r1) j cp2 k) with
            | some v =>
              rw [hx] at h
              simp only [Option.some.injEq] at h
              subst h
              obtain ⟨j1, new1, hk1, hok1, hm1⟩ := ih r1 i cp _ _ hx
              obtain ⟨j2, new2, hk2, hok2, hm2⟩ :=
                ih (.rep true 0 (predO hi) r1) j1 (new1 ++ cp) k _ hk1
              refine ⟨j2, new2 ++ new1, by simpa [List.append_assoc] using hk2, ?_, ?_⟩
              · intro e he
                rcases List.mem_append.mp he with h2 | h1
                · exact entryOK_sub (hok2 e h2) (by intro p hp; simpa [grpsOf] using hp)
                · exact entryOK_sub (hok1 e h1) (by intro p hp; simpa [grpsOf] using hp)
              · exact CanM.repS h0 hm1 hm2
            | none =>
              rw [hx] at h
              simp at h
              exact ⟨i, [], by simpa using h, by simp, CanM.rep0⟩
          | false =>
            rw [if_neg (by simp)] at h
            cases hx : k i cp with
            | some v =>
              rw [hx] at h
              simp only [Option.some.injEq] at h
              subst h
              exact ⟨i, [], by simpa using hx, by simp, CanM.rep0⟩
            | none =>
              rw [hx] at h
              simp at h
              obtain ⟨j1, new1, hk1, hok1, hm1⟩ := ih r1 i cp _ res h
              obtain ⟨j2, new2, hk2, hok2, hm2⟩ :=
                ih (.rep false 0 (predO hi) r1) j1 (new1 ++ cp) k res hk1
              refine ⟨j2, new2 ++ new1, by simpa [List.append_assoc] using hk2, ?_, ?_⟩
              · intro e he
                rcases List.mem_append.mp he with h2 | h1
                · exact entryOK_sub (hok2 e h2) (by intro p hp; simpa [grpsOf] using hp)
                · exact entryOK_sub (hok1 e h1) (by intro p hp; simpa [grpsOf] using hp)
              · exact CanM.repS h0 hm1 hm2
        · next hlo =>
          obtain ⟨j1, new1, hk1, hok1, hm1⟩ := ih r1 i cp _ res h
          obtain ⟨j2, new2, hk2, hok2, hm2⟩ :=
            ih (.rep gr (lo - 1) (predO hi) r1) j1 (new1 ++ cp) k res hk1
          refine ⟨j2, new2 ++ new1, by simpa [List.append_assoc] using hk2, ?_, ?_⟩
          · intro e he
            rcases List.mem_append.mp he with h2 | h1
            · exact entryOK_sub (hok2 e h2) (by intro p hp; simpa [grpsOf] using hp)
            · exact entryOK_sub (hok1 e h1) (by intro p hp; simpa [grpsOf] using hp)
          · exact CanM.repS h0 hm1 hm2

theorem canM_le {inp : List Char} {r : RE} {i j : Nat} (h : CanM inp r i j) : i ≤ j := by
  induction h with
  | eps => exact Nat.le_refl _
  | wordB _ => exact Nat.le_refl _
  | cls _ _ => exact Nat.le_succ _
  | seqm _ _ ih1 ih2 => exact Nat.le_trans ih1 ih2
  | altl _ ih => exact ih
  | altr _ ih => exact ih
  | grpm _ ih => exact ih
  | rep0 => exact Nat.le_refl _
  | repS _ _ _ ih1 ih2 => exact Nat.le_trans ih1 ih2

theorem canM_rep_cls_aux {inp : List Char} {p : Char → Bool} {gr : Bool}
    {r : RE} {i j : Nat} (h : CanM inp r i j) :
    ∀ lo hi, r = .rep gr lo hi (.cls p) →
      lo + i ≤ j ∧ (∀ m, hi = some m → j ≤ i + m) ∧
        (∀ t, i ≤ t → t < j → ∃ c, inp[t]? = some c ∧ p c = true) := by
  induction h with
  | eps => intro lo hi hr; exact absurd hr (by simp)
  | wordB _ => intro lo hi hr; exact absurd hr (by simp)
  | cls _ _ => intro lo hi hr; exact absurd hr (by simp)
  | seqm _ _ _ _ => intro lo hi hr; exact absurd hr (by simp)
  | altl _ _ => intro lo hi hr; exact absurd hr (by simp)
  | altr _ _ => intro lo hi hr; exact absurd hr (by simp)
  | grpm _ _ => intro lo hi hr; exact absurd hr (by simp)
  | rep0 =>
    intro lo hi hr
    obtain ⟨-, hlo, -, -⟩ := RE.rep.inj hr
    exact ⟨by omega, fun m hm => by omega, fun t ht1 ht2 => by omega⟩
  | repS h0 hc hrest ihc ih =>
    intro lo hi hr
    obtain ⟨hgr, hlo, hhi, hb⟩ := RE.rep.inj hr
    subst hgr hlo hhi hb
    cases hc with
    | cls hg hp =>
      obtain ⟨ih1, ih2, ih3⟩ := ih _ _ rfl
      refine ⟨by omega, ?_, ?_⟩
      · intro m hm
        subst hm
        cases m with
        | zero => exact absurd rfl h0
        | succ m2 =>
          have h2 := ih2 m2 (by simp [predO])
          omega
      · intro t ht1 ht2
        rcases Nat.eq_or_lt_of_le ht1 with he | hlt
        · subst he
          exact ⟨_, hg, hp⟩
        · exact ih3 t hlt ht2

/-- What a counted repetition of a single character class can consume: at
least `lo` and at most `hi` characters, each satisfying the class. -/
theorem canM_rep_cls {inp : List Char} {p : Char → Bool} {gr : Bool}
    {lo : Nat} {hi : Option Nat} {i j : Nat}
    (h : CanM inp (.rep gr lo hi (.cls p)) i j) :
    lo + i ≤ j ∧ (∀ m, hi = some m → j ≤ i + m) ∧
      (∀ t, i ≤ t → t < j → ∃ c, inp[t]? = some c ∧ p c = true) :=
  canM_rep_cls_aux h lo hi rfl


theorem matchAt_sound {r : RE} {inp : List Char} {i j : Nat} {cp : Caps}
    (h : matchAt r inp i = some (j, cp)) : ∀ e ∈ cp, EntryOK inp r e := by
  unfold matchAt at h
  obtain ⟨j1, new, hk, hok, hm⟩ := mrun_sound inp _ r i [] _ _ h
  simp only [Option.some.injEq, Prod.mk.injEq, List.append_nil] at hk
  obtain ⟨-, hcp⟩ := hk
  subst hcp
  exact hok

theorem reSearchAux_sound {r : RE} {inp : List Char} :
    ∀ (f i : Nat) (cp : Caps), reSearchAux r inp f i = some cp →
      ∀ e ∈ cp, EntryOK inp r e := by
  intro f
  induction f with
  | zero => intro i cp h; simp [reSearchAux] at h
  | succ f ih =>
    intro i cp h
    simp only [reSearchAux] at h
    cases hx : matchAt r inp i with
    | some v =>
      obtain ⟨j2, cp2⟩ := v
      rw [hx] at h
      simp at h
      subst h
      exact matchAt_sound hx
    | none =>
      rw [hx] at h
      simp at h
      obtain ⟨-, h⟩ := h
      exact ih (i + 1) cp h

theorem reSearch_sound {r : RE} {inp : List Char} {cp : Caps}
    (h : reSearch r inp = some cp) : ∀ e ∈ cp, EntryOK inp r e :=
  reSearchAux_sound _ _ _ h

theorem reFindallAux_sound {r : RE} {inp : List Char} :
    ∀ (f i : Nat) (cp : Caps), cp ∈ reFindallAux r inp f i →
      ∀ e ∈ cp, EntryOK inp r e := by
  intro f
  induction f with
  | zero => intro i cp h; simp [reFindallAux] at h
  | succ f ih =>
    intro i cp h
    simp only [reFindallAux] at h
    split at h
    · exact absurd h (by simp)
    · cases hx : matchAt r inp i with
      | some v =>
        obtain ⟨j2, cp2⟩ := v
        rw [hx] at h
        rcases List.mem_cons.mp h with he | ht
        · subst he
          exact matchAt_sound hx
        · exact ih _ cp ht
      | none =>
        rw [hx] at h
        exact ih _ cp h

theorem reFindall_sound {r : RE} {inp : List Char} {cp : Caps}
    (h : cp ∈ reFindall r inp) : ∀ e ∈ cp, EntryOK inp r e :=
  reFindallAux_sound _ _ _ h

/-! ### Facts about slices of the input -/

theorem sliceStr_data (inp : List Char) (s t : Nat) :
    (sliceStr inp s t).data = (inp.take t).drop s := rfl

theorem sliceStr_length {inp : List Char} {s t : Nat} (h1 : s ≤ t)
    (h2 : t ≤ inp.length) : (sliceStr inp s t).length = t - s := by
  show ((inp.take t).drop s).length = t - s
  simp [List.length_drop, List.length_take]
  omega

theorem slice_one {inp : List Char} {s : Nat} {c : Char}
    (h : inp[s]? = some c) : sliceStr inp s (s + 1) = String.mk [c] := by
  have hs : s < inp.length := by
    rcases List.getElem?_eq_some_iff.mp h with ⟨hl, -⟩
    exact hl
  have ht : inp.take (s + 1) = inp.take s ++ [c] := by
    rw [List.take_succ, h]
    rfl
  have hlen : (inp.take s).length = s := List.length_take_of_le (Nat.le_of_lt hs)
  unfold sliceStr
  rw [ht, List.drop_left' hlen]

theorem slice_two {inp : List Char} {s : Nat} {c d : Char}
    (h1 : inp[s]? = some c) (h2 : inp[s + 1]? = some d) :
    sliceStr inp s (s + 2) = String.mk [c, d] := by
  have hs : s + 1 < inp.length := by
    rcases List.getElem?_eq_some_iff.mp h2 with ⟨hl, -⟩
    exact hl
  have ht1 : inp.take (s + 1) = inp.take s ++ [c] := by
    rw [List.take_succ, h1]
    rfl
  have ht : inp.take (s + 2) = inp.take s ++ [c, d] := by
    rw [show s + 2 = (s + 1) + 1 from rfl, List.take_succ, h2, ht1]
    simp
  have hlen : (inp.take s).length = s := List.length_take_of_le (by omega)
  unfold sliceStr
  rw [ht, List.drop_left' hlen]

/-! ### The shapes of the subject pattern's captures -/

theorem grpsOf_subjectPattern :
    grpsOf subjectPattern =
      [(1, codeBody), (2, nameBody), (3, digitBody), (4, gradeBody)] := rfl

theorem capStr_spec {inp : List Char} {cp : Caps} {g : Nat} {s : String}
    (h : capStr inp cp g = some s) :
    ∃ e ∈ cp, e.1 = g ∧ s = sliceStr inp e.2.1 e.2.2 := by
  unfold capStr at h
  cases hf : cp.find? (fun e => e.1 == g) with
  | none => rw [hf] at h; simp at h
  | some e =>
    rw [hf] at h
    simp at h
    have hmem := List.mem_of_find?_eq_some hf
    have hpred := List.find?_some hf
    simp only [beq_iff_eq] at hpred
    exact ⟨e, hmem, hpred, h.symm⟩

theorem canM_gradeBody {inp : List Char} {s t : Nat}
    (h : CanM inp gradeBody s t) :
    ∃ c, inp[s]? = some c ∧ gradeCl c = true ∧
      (t = s + 1 ∨ (t = s + 2 ∧ inp[s + 1]? = some '+')) := by
  cases h with
  | seqm h1 h2 =>
    cases h1 with
    | cls hg hp =>
      obtain ⟨hb1, hb2, hb3⟩ := canM_rep_cls h2
      have hle := hb2 1 rfl
      refine ⟨_, hg, hp, ?_⟩
      rcases Nat.lt_or_ge (s + 1) t with hlt | hge
      · right
        have ht : t = s + 2 := by omega
        subst ht
        obtain ⟨c2, hc2, hpl⟩ := hb3 (s + 1) (by omega) (by omega)
        simp only [plusCl, beq_iff_eq] at hpl
        subst hpl
        exact ⟨rfl, hc2⟩
      · left
        omega

theorem canM_codeBody {inp : List Char} {s t : Nat}
    (h : CanM inp codeBody s t) :
    5 + s ≤ t ∧ t ≤ s + 7 ∧ t ≤ inp.length := by
  obtain ⟨hb1, hb2, hb3⟩ := canM_rep_cls h
  have hle := hb2 7 rfl
  refine ⟨hb1, by omega, ?_⟩
  obtain ⟨c, hc, -⟩ := hb3 (t - 1) (by omega) (by omega)
  rcases List.getElem?_eq_some_iff.mp hc with ⟨hl, -⟩
  omega

theorem canM_digitBody {inp : List Char} {s t : Nat}
    (h : CanM inp digitBody s t) :
    ∃ c, inp[s]? = some c ∧ isPyDigit c = true ∧ t = s + 1 := by
  cases h with
  | cls hg hp => exact ⟨_, hg, hp, rfl⟩

theorem entryOK_subject {inp : List Char} {e : Nat × Nat × Nat}
    (h : EntryOK inp subjectPattern e) :
    (e.1 = 1 → CanM inp codeBody e.2.1 e.2.2) ∧
      (e.1 = 3 → CanM inp digitBody e.2.1 e.2.2) ∧
      (e.1 = 4 → CanM inp gradeBody e.2.1 e.2.2) := by
  obtain ⟨b, hb, hc⟩ := h
  rw [grpsOf_subjectPattern] at hb
  refine ⟨fun h1 => ?_, fun h3 => ?_, fun h4 => ?_⟩
  · rw [h1] at hb
    simp at hb
    rwa [hb] at hc
  · rw [h3] at hb
    simp at hb
    rwa [hb] at hc
  · rw [h4] at hb
    simp at hb
    rwa [hb] at hc

theorem digit_toNat_le {c : Char} (h : isPyDigit c = true) : c.toNat - 48 ≤ 9 := by
  simp [isPyDigit] at h
  obtain ⟨-, h2⟩ := h
  have h3 := Char.le_def.mp h2
  rw [UInt32.le_def] at h3
  have h4 : c.toNat ≤ 57 := h3
  omega

theorem pyLast5_length {s : String} (h5 : 5 ≤ s.data.length) :
    (pyLast5 s).length = 5 := by
  show (s.data.drop (s.data.length - 5)).length = 5
  have h6 : s.data.length = s.length := rfl
  simp [List.length_drop]
  omega

theorem digitsToNat_single (c : Char) :
    digitsToNat (String.mk [c]) = c.toNat - 48 := by
  simp [digitsToNat]

/-- Every record `extract_subjects` produces has a grade drawn from the
eight tokens matched by `[OABC][+]?`, a single-digit credit, and a
five-character code. -/
theorem extract_subjects_facts {text : String} {r : SubjectRecord}
    (h : r ∈ extract_subjects text) :
    r.grade ∈ (["O", "O+", "A", "A+", "B", "B+", "C", "C+"] : List String) ∧
      r.credit ≤ 9 ∧ r.code.length = 5 := by
  unfold extract_subjects at h
  rcases List.mem_filterMap.mp h with ⟨cp, hcp, hf⟩
  have hsound := reFindall_sound hcp
  unfold subjectOfCaps at hf
  cases h1 : capStr text.data cp 1 with
  | none => rw [h1] at hf; simp at hf
  | some code =>
  cases h2 : capStr text.data cp 2 with
  | none => rw [h1, h2] at hf; simp at hf
  | some nm =>
  cases h3 : capStr text.data cp 3 with
  | none => rw [h1, h2, h3] at hf; simp at hf
  | some cr =>
  cases h4 : capStr text.data cp 4 with
  | none => rw [h1, h2, h3, h4] at hf; simp at hf
  | some gr =>
  rw [h1, h2, h3, h4] at hf
  simp only [Option.some.injEq] at hf
  subst hf
  refine ⟨?_, ?_, ?_⟩
  · obtain ⟨e, hmem, hg, hs⟩ := capStr_spec h4
    have hcan := (entryOK_subject (hsound e hmem)).2.2 hg
    obtain ⟨c, hgc, hcl, hsh⟩ := canM_gradeBody hcan
    simp only [gradeCl, Bool.or_eq_true, beq_iff_eq] at hcl
    show gr ∈ (["O", "O+", "A", "A+", "B", "B+", "C", "C+"] : List String)
    rcases hsh with h1' | ⟨h2', hpl⟩
    · rw [h1'] at hs
      rw [slice_one hgc] at hs
      rw [hs]
      rcases hcl with ((rfl | rfl) | rfl) | rfl <;> decide
    · rw [h2'] at hs
      rw [slice_two hgc hpl] at hs
      rw [hs]
      rcases hcl with ((rfl | rfl) | rfl) | rfl <;> decide
  · obtain ⟨e, hmem, hg, hs⟩ := capStr_spec h3
    have hcan := (entryOK_subject (hsound e hmem)).2.1 hg
    obtain ⟨c, hgc, hdig, hone⟩ := canM_digitBody hcan
    rw [hone] at hs
    rw [slice_one hgc] at hs
    subst hs
    show digitsToNat (String.mk [c]) ≤ 9
    rw [digitsToNat_single]
    exact digit_toNat_le hdig
  · obtain ⟨e, hmem, hg, hs⟩ := capStr_spec h1
    have hcan := (entryOK_subject (hsound e hmem)).1 hg
    obtain ⟨hb1, hb2, hb3⟩ := canM_codeBody hcan
    subst hs
    show (pyLast5 (sliceStr text.data e.2.1 e.2.2)).length = 5
    apply pyLast5_length
    have hlen : (sliceStr text.data e.2.1 e.2.2).length = e.2.2 - e.2.1 :=
      sliceStr_length (by omega) hb3
    have hsame : (sliceStr text.data e.2.1 e.2.2).length =
        (sliceStr text.data e.2.1 e.2.2).data.length := rfl
    omega

/-! ### Claim theorems: the subject extractor's grade alphabet and shapes -/

/-- C1, counterexample: the claim says every accepted grade lies in the
known alphabet `{O, A+, A, B+, B, C, U}` (the keys of `GRADE_POINTS`) and
that rows with out-of-vocabulary grade tokens are dropped.  But the pattern's
grade group is `[OABC][+]?`, so the row `AB123 Data Structures 3 O+` is
accepted with grade `O+`, which is not a key of `GRADE_POINTS`. -/
theorem C1_counterexample :
    (extract_subjects "AB123 Data Structures 3 O+").map (fun r => r.grade) = ["O+"] ∧
      "O+" ∉ GRADE_POINTS.map Prod.fst := by decide

/-- C1, amended: for every input text, every record produced by
`extract_subjects` has a grade in the set matched by `[OABC][+]?`, namely
`{O, O+, A, A+, B, B+, C, C+}`; tokens outside this set (in particular `U`)
never appear, and rows bearing them fail to match. -/
theorem C1_grade_alphabet (text : String) (r : SubjectRecord)
    (h : r ∈ extract_subjects text) :
    r.grade ∈ (["O", "O+", "A", "A+", "B", "B+", "C", "C+"] : List String) :=
  (extract_subjects_facts h).1

/-- Witness for C1's amended theorem at a concrete input. -/
theorem C1_grade_alphabet_witness :
    (⟨"AB123", "Maths", 3, "O"⟩ : SubjectRecord) ∈ extract_subjects "AB123 Maths 3 O" ∧
      (⟨"AB123", "Maths", 3, "O"⟩ : SubjectRecord).grade ∈
        (["O", "O+", "A", "A+", "B", "B+", "C", "C+"] : List String) :=
  ⟨by decide, C1_grade_alphabet "AB123 Maths 3 O" _ (by decide)⟩

/-- C10: every record produced by `extract_subjects` has a single-decimal-digit
credit (an integer between 0 and 9) and a code of exactly five characters:
the pattern captures exactly one digit for the credit, and the code —
five to seven characters by the pattern — is truncated to its trailing five. -/
theorem C10_credit_digit_code_five (text : String) (r : SubjectRecord)
    (h : r ∈ extract_subjects text) :
    r.credit ≤ 9 ∧ r.code.length = 5 :=
  (extract_subjects_facts h).2

/-- Witness for C10 at a concrete input. -/
theorem C10_credit_digit_code_five_witness :
    (⟨"CD456", "Physics", 4, "A"⟩ : SubjectRecord) ∈ extract_subjects "XCD456 Physics 4 A" ∧
      ((⟨"CD456", "Physics", 4, "A"⟩ : SubjectRecord).credit ≤ 9 ∧
        (⟨"CD456", "Physics", 4, "A"⟩ : SubjectRecord).code.length = 5) :=
  ⟨by decide, C10_credit_digit_code_five "XCD456 Physics 4 A" _ (by decide)⟩

/-! ### The SGPA fold as filtered sums -/

theorem sgpa_foldl_aux (subs : List SubjectRecord) (a b : Nat) :
    subs.foldl
        (fun (acc : Nat × Nat) s =>
          if s.credit = 0 then acc
          else (acc.1 + gradeLookup s.grade * s.credit, acc.2 + s.credit)) (a, b) =
      (a + ((subs.filter (fun s => s.credit != 0)).map
          (fun s => gradeLookup s.grade * s.credit)).sum,
        b + ((subs.filter (fun s => s.credit != 0)).map (fun s => s.credit)).sum) := by
  induction subs generalizing a b with
  | nil => simp
  | cons x xs ih =>
    by_cases hx : x.credit = 0
    · simp [hx, List.foldl_cons, ih]
    · rw [List.foldl_cons, if_neg hx, ih]
      have hb : (x.credit != 0) = true := by simpa using hx
      rw [List.filter_cons, if_pos hb]
      simp only [List.map_cons, List.sum_cons, Prod.mk.injEq]
      constructor <;> omega

theorem calculate_sgpa_points (subs : List SubjectRecord) :
    (calculate_sgpa subs).2.2 =
      ((subs.filter (fun s => s.credit != 0)).map
        (fun s => gradeLookup s.grade * s.credit)).sum := by
  unfold calculate_sgpa
  rw [show ((0, 0) : Nat × Nat) = ((0 : Nat), (0 : Nat)) from rfl, sgpa_foldl_aux]
  simp

theorem calculate_sgpa_credits (subs : List SubjectRecord) :
    (calculate_sgpa subs).2.1 =
      ((subs.filter (fun s => s.credit != 0)).map (fun s => s.credit)).sum := by
  unfold calculate_sgpa
  rw [show ((0, 0) : Nat × Nat) = ((0 : Nat), (0 : Nat)) from rfl, sgpa_foldl_aux]
  simp

theorem calculate_sgpa_avg (subs : List SubjectRecord) :
    (calculate_sgpa subs).1 =
      if (calculate_sgpa subs).2.1 ≠ 0 then
        pyRound2 (((calculate_sgpa subs).2.2 : ℚ) / ((calculate_sgpa subs).2.1 : ℚ))
      else 0 := rfl

theorem gradeLookup_unknown {g : String} (h : ∀ p ∈ GRADE_POINTS, p.1 ≠ g) :
    gradeLookup g = 0 := by
  unfold gradeLookup
  rw [List.find?_eq_none.mpr]
  · rfl
  · intro p hp
    simp [h p hp]

/-! ### Claim theorems: the SGPA computation -/

/-- C3: `calculate_sgpa` excludes `credit == 0` subjects from both sums,
returns exactly the filtered weighted-point and credit sums, rounds the
quotient only when the credit sum is positive (returning 0 otherwise), and
unknown grade symbols contribute 0 points. -/
theorem C3_calculate_sgpa_spec (subs : List SubjectRecord) :
    (calculate_sgpa subs).2.2 =
        ((subs.filter (fun s => s.credit != 0)).map
          (fun s => gradeLookup s.grade * s.credit)).sum ∧
      (calculate_sgpa subs).2.1 =
        ((subs.filter (fun s => s.credit != 0)).map (fun s => s.credit)).sum ∧
      (calculate_sgpa subs).1 =
        (if (calculate_sgpa subs).2.1 ≠ 0 then
          pyRound2 (((calculate_sgpa subs).2.2 : ℚ) / ((calculate_sgpa subs).2.1 : ℚ))
        else 0) ∧
      ∀ g : String, (∀ p ∈ GRADE_POINTS, p.1 ≠ g) → gradeLookup g = 0 :=
  ⟨calculate_sgpa_points subs, calculate_sgpa_credits subs,
    calculate_sgpa_avg subs, fun _ h => gradeLookup_unknown h⟩

/-- Witness for C3 at a concrete input: a zero-credit `A+` row is excluded
from both sums, and the unknown grade symbol `Z` maps to 0 points. -/
theorem C3_calculate_sgpa_spec_witness :
    (calculate_sgpa [⟨"PH102", "Physics Lab", 0, "A+"⟩, ⟨"MA101", "Maths", 3, "O"⟩]).2.2 =
        (([⟨"PH102", "Physics Lab", 0, "A+"⟩,
            (⟨"MA101", "Maths", 3, "O"⟩ : SubjectRecord)].filter
          (fun s => s.credit != 0)).map (fun s => gradeLookup s.grade * s.credit)).sum ∧
      gradeLookup "Z" = 0 :=
  ⟨(C3_calculate_sgpa_spec _).1,
    (C3_calculate_sgpa_spec []).2.2.2 "Z" (by decide)⟩

/-- C4, counterexample: the claim says `averagePoints` is 0 iff
`totalCredits` is 0, but a single 3-credit subject graded `U` (0 points)
yields average 0 with 3 credits. -/
theorem C4_counterexample :
    (calculate_sgpa [⟨"MA101", "Maths", 3, "U"⟩]).1 = 0 ∧
      (calculate_sgpa [⟨"MA101", "Maths", 3, "U"⟩]).2.1 ≠ 0 := by
  with_unfolding_all decide

/-- C4, amended: `averagePoints` is 0 whenever `totalCredits` is 0, and
whenever `totalCredits` is nonzero it equals
`round(totalWeightedPoints / totalCredits, 2)` — which can itself be 0 when
the weighted points are 0, so the converse direction fails. -/
theorem C4_avg_zero_amended (subs : List SubjectRecord) :
    ((calculate_sgpa subs).2.1 = 0 → (calculate_sgpa subs).1 = 0) ∧
      ((calculate_sgpa subs).2.1 ≠ 0 →
        (calculate_sgpa subs).1 =
          pyRound2 (((calculate_sgpa subs).2.2 : ℚ) / ((calculate_sgpa subs).2.1 : ℚ))) := by
  constructor
  · intro h
    rw [calculate_sgpa_avg, if_neg (by simpa using h)]
  · intro h
    rw [calculate_sgpa_avg, if_pos h]

/-- Witness for C4's amended theorem at concrete inputs. -/
theorem C4_avg_zero_amended_witness :
    (calculate_sgpa ([] : List SubjectRecord)).1 = 0 ∧
      (calculate_sgpa [⟨"MA101", "Maths", 3, "O"⟩]).1 =
        pyRound2 (((calculate_sgpa [⟨"MA101", "Maths", 3, "O"⟩]).2.2 : ℚ) /
          ((calculate_sgpa [⟨"MA101", "Maths", 3, "O"⟩]).2.1 : ℚ)) :=
  ⟨(C4_avg_zero_amended []).1 (by decide),
    (C4_avg_zero_amended [⟨"MA101", "Maths", 3, "O"⟩]).2 (by decide)⟩

/-! ### Claim theorems: guarded divisions -/

theorem generateSummary_cgpa_eq (texts : List String) :
    (generateSummary texts).cgpa =
      (if (((generateSummary texts).semesters.map (fun s => s.credits)).sum : Nat) ≠ 0 then
        pyRound2 (((((generateSummary texts).semesters.map (fun s => s.points)).sum : Nat) : ℚ) /
          ((((generateSummary texts).semesters.map (fun s => s.credits)).sum : Nat) : ℚ))
      else 0) := rfl

/-- C5: both averages are computed behind a credit-sum guard: when the credit
sum is 0 the result is the constant 0 and no quotient is formed, and when it
is nonzero the quotient's denominator is provably nonzero, so no division by
zero is ever evaluated, at the term level or at the overall level. -/
theorem C5_guarded_division (subs : List SubjectRecord) (texts : List String) :
    ((calculate_sgpa subs).2.1 = 0 → (calculate_sgpa subs).1 = 0) ∧
      ((calculate_sgpa subs).2.1 ≠ 0 →
        ((calculate_sgpa subs).2.1 : ℚ) ≠ 0 ∧
          (calculate_sgpa subs).1 =
            pyRound2 (((calculate_sgpa subs).2.2 : ℚ) / ((calculate_sgpa subs).2.1 : ℚ))) ∧
      ((((generateSummary texts).semesters.map (fun s => s.credits)).sum : Nat) = 0 →
        (generateSummary texts).cgpa = 0) ∧
      ((((generateSummary texts).semesters.map (fun s => s.credits)).sum : Nat) ≠ 0 →
        (((((generateSummary texts).semesters.map (fun s => s.credits)).sum : Nat) : ℚ) ≠ 0 ∧
          (generateSummary texts).cgpa =
            pyRound2 (((((generateSummary texts).semesters.map (fun s => s.points)).sum : Nat) : ℚ) /
              ((((generateSummary texts).semesters.map (fun s => s.credits)).sum : Nat) : ℚ)))) := by
  refine ⟨?_, ?_, ?_, ?_⟩
  · intro h
    rw [calculate_sgpa_avg, if_neg (by simpa using h)]
  · intro h
    exact ⟨Nat.cast_ne_zero.mpr h, by rw [calculate_sgpa_avg, if_pos h]⟩
  · intro h
    rw [generateSummary_cgpa_eq, if_neg (by simpa using h)]
  · intro h
    exact ⟨Nat.cast_ne_zero.mpr h, by rw [generateSummary_cgpa_eq, if_pos h]⟩

/-- Witness for C5 at concrete inputs: both guard branches exercised at both
levels. -/
theorem C5_guarded_division_witness :
    (calculate_sgpa ([] : List SubjectRecord)).1 = 0 ∧
      ((calculate_sgpa [⟨"MA101", "Maths", 3, "O"⟩]).2.1 : ℚ) ≠ 0 ∧
      (generateSummary ([] : List String)).cgpa = 0 ∧
      ((((generateSummary ["SEMESTER 1\nAB123 Maths 3 O"]).semesters.map
          (fun s => s.credits)).sum : Nat) : ℚ) ≠ 0 :=
  ⟨(C5_guarded_division [] []).1 (by decide),
    ((C5_guarded_division [⟨"MA101", "Maths", 3, "O"⟩] []).2.1 (by decide)).1,
    (C5_guarded_division [] []).2.2.1 (by decide),
    ((C5_guarded_division [] ["SEMESTER 1\nAB123 Maths 3 O"]).2.2.2
      (by with_unfolding_all decide)).1⟩

/-! ### Sorting preserves the per-term sums -/

theorem insNo_map_sum (f : SemRec → Nat) (x : SemRec) (l : List SemRec) :
    ((insNo x l).map f).sum = f x + (l.map f).sum := by
  induction l with
  | nil => simp [insNo]
  | cons y ys ih =>
    unfold insNo
    split
    · simp
    · simp only [List.map_cons, List.sum_cons, ih]
      omega

theorem sortByNo_map_sum (f : SemRec → Nat) (l : List SemRec) :
    ((sortByNo l).map f).sum = (l.map f).sum := by
  induction l with
  | nil => rfl
  | cons x xs ih => simp [sortByNo, insNo_map_sum, ih]

/-- C2: the overall average is `round(Σ totalWeightedPoints / Σ totalCredits, 2)`
over all terms of the term map (0 on a zero credit sum); on the worked
example — term totals 62 points / 7 credits and 48 points / 6 credits — it is
`round(110/13, 2) = 8.46`, which differs from the simple mean 8.43 of the two
per-term averages 8.86 and 8.0. -/
theorem C2_overall_average :
    (∀ texts : List String,
      (generateSummary texts).cgpa =
        (if (((termMapOf texts).map (fun p => p.2.credits)).sum : Nat) ≠ 0 then
          pyRound2 (((((termMapOf texts).map (fun p => p.2.points)).sum : Nat) : ℚ) /
            ((((termMapOf texts).map (fun p => p.2.credits)).sum : Nat) : ℚ))
        else 0)) ∧
      (generateSummary ["SEMESTER 1\nAB123 Maths 3 O\nCD456 Physics 4 A",
          "SEMESTER 2\nEF789 Chemistry 6 A"]).cgpa = (846 / 100 : ℚ) ∧
      (generateSummary ["SEMESTER 1\nAB123 Maths 3 O\nCD456 Physics 4 A",
          "SEMESTER 2\nEF789 Chemistry 6 A"]).semesters.map (fun s => s.sgpa) =
        [(886 / 100 : ℚ), (8 : ℚ)] ∧
      pyRound2 (((886 / 100 : ℚ) + 8) / 2) = (843 / 100 : ℚ) ∧
      (846 / 100 : ℚ) ≠ (843 / 100 : ℚ) := by
  set_option maxRecDepth 4000 in
  refine ⟨?_, ?_, ?_, ?_, ?_⟩
  · intro texts
    rw [generateSummary_cgpa_eq]
    have hsem : (generateSummary texts).semesters =
        sortByNo ((termMapOf texts).map Prod.snd) := rfl
    rw [hsem, sortByNo_map_sum, sortByNo_map_sum, List.map_map, List.map_map]
    rfl
  · with_unfolding_all decide
  · with_unfolding_all decide
  · with_unfolding_all decide
  · with_unfolding_all decide

/-! ### Claim theorems: term collisions -/

/-! ### The term map's keys stay distinct and sorting is a sorted permutation -/

theorem insNo_perm (x : SemRec) (l : List SemRec) : (insNo x l).Perm (x :: l) := by
  induction l with
  | nil => simp [insNo]
  | cons y ys ih =>
    unfold insNo
    split
    · exact List.Perm.refl _
    · exact (List.Perm.cons y ih).trans (List.Perm.swap x y ys)

theorem sortByNo_perm (l : List SemRec) : (sortByNo l).Perm l := by
  induction l with
  | nil => simp [sortByNo]
  | cons x xs ih =>
    unfold sortByNo
    exact ((insNo_perm x (sortByNo xs)).trans (List.Perm.cons x ih))

theorem insNo_pairwise (x : SemRec) :
    ∀ l : List SemRec, l.Pairwise (fun a b => a.no ≤ b.no) →
      (insNo x l).Pairwise (fun a b => a.no ≤ b.no) := by
  intro l
  induction l with
  | nil => intro h; simp [insNo]
  | cons y ys ih =>
    intro h
    rcases List.pairwise_cons.mp h with ⟨hy, hys⟩
    unfold insNo
    split
    · next hlt =>
      refine List.pairwise_cons.mpr ⟨?_, h⟩
      intro z hz
      rcases List.mem_cons.mp hz with rfl | hz2
      · omega
      · have hyz := hy z hz2
        omega
    · next hge =>
      refine List.pairwise_cons.mpr ⟨?_, ih hys⟩
      intro z hz
      have hz3 := (insNo_perm x ys).mem_iff.mp hz
      rcases List.mem_cons.mp hz3 with rfl | hz4
      · omega
      · exact hy z hz4

theorem sortByNo_pairwise (l : List SemRec) :
    (sortByNo l).Pairwise (fun a b => a.no ≤ b.no) := by
  induction l with
  | nil => simp [sortByNo]
  | cons x xs ih =>
    unfold sortByNo
    exact insNo_pairwise x _ ih

theorem dictUpd_inv {m : List (Int × SemRec)} {k : Int} {v : SemRec}
    (h1 : (m.map Prod.fst).Nodup) (h2 : ∀ p ∈ m, p.2.no = p.1) (hv : v.no = k) :
    ((dictUpd m k v).map Prod.fst).Nodup ∧ ∀ p ∈ dictUpd m k v, p.2.no = p.1 := by
  unfold dictUpd
  split
  · next hany =>
    have hkeys : (m.map (fun p => if p.1 == k then (k, v) else p)).map Prod.fst =
        m.map Prod.fst := by
      rw [List.map_map]
      apply List.map_congr_left
      intro p hp
      by_cases hpk : p.1 == k
      · have hpk2 : p.1 = k := by simpa using hpk
        simp [hpk, Function.comp, hpk2]
      · simp [hpk, Function.comp]
    constructor
    · rw [hkeys]; exact h1
    · intro p hp
      rcases List.mem_map.mp hp with ⟨q, hq, hqe⟩
      by_cases hqk : q.1 == k
      · rw [if_pos hqk] at hqe
        subst hqe
        exact hv
      · rw [if_neg hqk] at hqe
        subst hqe
        exact h2 q hq
  · next hany =>
    have hnotin : k ∉ m.map Prod.fst := by
      intro hk
      rcases List.mem_map.mp hk with ⟨q, hq, hqe⟩
      have := (List.any_eq_true.not.mp hany)
      exact this ⟨q, hq, by simp [hqe]⟩
    constructor
    · rw [List.map_append]
      simp only [List.map_cons, List.map_nil]
      rw [List.nodup_append]
      refine ⟨h1, List.nodup_singleton k, ?_⟩
      intro a ha hb
      rw [List.mem_singleton] at hb
      subst hb
      exact hnotin ha
    · intro p hp
      rcases List.mem_append.mp hp with hp1 | hp2
      · exact h2 p hp1
      · rcases List.mem_singleton.mp hp2 with rfl
        exact hv

theorem termMap_foldl_inv (texts : List String) :
    ∀ st : (String × String) × List (Int × SemRec),
      ((st.2.map Prod.fst).Nodup ∧ ∀ p ∈ st.2, p.2.no = p.1) →
      (((texts.foldl foldStep st).2.map Prod.fst).Nodup ∧
        ∀ p ∈ (texts.foldl foldStep st).2, p.2.no = p.1) := by
  induction texts with
  | nil => intro st h; exact h
  | cons d ds ih =>
    intro st h
    rw [List.foldl_cons]
    apply ih
    unfold foldStep
    cases extract_semester d with
    | none => exact h
    | some sem => exact dictUpd_inv h.1 h.2 rfl

/-! ### The term map's record for a term comes from the last resolving document -/

theorem find?_cons_pos {α : Type} (p : α → Bool) (a : α) (l : List α)
    (h : p a = true) : (a :: l).find? p = some a :=
  List.find?_cons_of_pos l h

theorem find?_cons_neg {α : Type} (p : α → Bool) (a : α) (l : List α)
    (h : p a = false) : (a :: l).find? p = l.find? p :=
  List.find?_cons_of_neg l (by simp [h])

theorem find?_map_upd_self (m : List (Int × SemRec)) (k : Int) (v : SemRec)
    (h : m.any (fun p => p.1 == k) = true) :
    (m.map (fun p => if p.1 == k then (k, v) else p)).find? (fun p => p.1 == k) =
      some (k, v) := by
  induction m with
  | nil => simp at h
  | cons q qs ih =>
    by_cases hq : q.1 == k
    · simp only [List.map_cons, if_pos hq]
      rw [find?_cons_pos (fun p => p.1 == k) (k, v) _ (by simp)]
    · simp only [List.map_cons, if_neg hq]
      rw [find?_cons_neg (fun p => p.1 == k) q _ (by simpa using hq)]
      apply ih
      simpa [hq] using h

theorem find?_append_self (m : List (Int × SemRec)) (k : Int) (v : SemRec)
    (h : m.any (fun p => p.1 == k) = false) :
    (m ++ [(k, v)]).find? (fun p => p.1 == k) = some (k, v) := by
  induction m with
  | nil => simp
  | cons q qs ih =>
    simp only [List.any_cons, Bool.or_eq_false_iff] at h
    rw [List.cons_append, find?_cons_neg (fun p => p.1 == k) q _ h.1]
    exact ih (by simp [h.2])

theorem dictUpd_find_self (m : List (Int × SemRec)) (k : Int) (v : SemRec) :
    (dictUpd m k v).find? (fun p => p.1 == k) = some (k, v) := by
  unfold dictUpd
  split
  · next hany => exact find?_map_upd_self m k v hany
  · next hany =>
    exact find?_append_self m k v (Bool.not_eq_true _ ▸ eq_false_of_ne_true hany)

theorem find?_map_upd_other (m : List (Int × SemRec)) (k t : Int) (v : SemRec)
    (hkt : k ≠ t) :
    (m.map (fun p => if p.1 == k then (k, v) else p)).find? (fun p => p.1 == t) =
      m.find? (fun p => p.1 == t) := by
  induction m with
  | nil => rfl
  | cons q qs ih =>
    by_cases hq : q.1 == k
    · have hq2 : q.1 = k := by simpa using hq
      simp only [List.map_cons, if_pos hq]
      rw [find?_cons_neg (fun p => p.1 == t) (k, v) _ (by simp [hkt]),
        find?_cons_neg (fun p => p.1 == t) q _ (by simp [hq2, hkt])]
      exact ih
    · simp only [List.map_cons, if_neg hq]
      by_cases hqt : (q.1 == t) = true
      · rw [find?_cons_pos (fun p => p.1 == t) q _ hqt,
          find?_cons_pos (fun p => p.1 == t) q _ hqt]
      · rw [find?_cons_neg (fun p => p.1 == t) q _ (eq_false_of_ne_true hqt),
          find?_cons_neg (fun p => p.1 == t) q _ (eq_false_of_ne_true hqt)]
        exact ih

theorem find?_append_other (m : List (Int × SemRec)) (k t : Int) (v : SemRec)
    (hkt : k ≠ t) :
    (m ++ [(k, v)]).find? (fun p => p.1 == t) = m.find? (fun p => p.1 == t) := by
  induction m with
  | nil => simp [show (k == t) = false from by simpa using hkt]
  | cons q qs ih =>
    by_cases hqt : (q.1 == t) = true
    · rw [List.cons_append, find?_cons_pos (fun p => p.1 == t) q _ hqt,
        find?_cons_pos (fun p => p.1 == t) q _ hqt]
    · rw [List.cons_append, find?_cons_neg (fun p => p.1 == t) q _ (eq_false_of_ne_true hqt),
        find?_cons_neg (fun p => p.1 == t) q _ (eq_false_of_ne_true hqt)]
      exact ih

theorem dictUpd_find_other (m : List (Int × SemRec)) (k t : Int) (v : SemRec)
    (hkt : k ≠ t) :
    (dictUpd m k v).find? (fun p => p.1 == t) = m.find? (fun p => p.1 == t) := by
  unfold dictUpd
  split
  · exact find?_map_upd_other m k t v hkt
  · exact find?_append_other m k t v hkt

theorem termMap_find_lastResolver (t : Int) (texts : List String) :
    ∀ st : (String × String) × List (Int × SemRec),
      ((texts.foldl foldStep st).2.find? (fun p => p.1 == t)) =
        (match lastResolver t texts with
          | some d => some (t, docTermRecord t d)
          | none => st.2.find? (fun p => p.1 == t)) := by
  induction texts with
  | nil => intro st; rfl
  | cons d ds ih =>
    intro st
    rw [List.foldl_cons, ih (foldStep st d)]
    by_cases hd : (extract_semester d == some t) = true
    · have hfil : (d :: ds).filter (fun x => extract_semester x == some t) =
          d :: ds.filter (fun x => extract_semester x == some t) := by
        rw [List.filter_cons, if_pos hd]
      have hsem : extract_semester d = some t := by simpa using hd
      cases hlr : lastResolver t ds with
      | some d2 =>
        have hlr2 : lastResolver t (d :: ds) = some d2 := by
          unfold lastResolver at hlr ⊢
          rw [hfil]
          cases hfd : ds.filter (fun x => extract_semester x == some t) with
          | nil => rw [hfd] at hlr; simp at hlr
          | cons e es =>
            rw [hfd] at hlr
            rw [List.getLast?_cons_cons]
            exact hlr
        rw [hlr2]
      | none =>
        have hfd : ds.filter (fun x => extract_semester x == some t) = [] := by
          unfold lastResolver at hlr
          cases hfd2 : ds.filter (fun x => extract_semester x == some t) with
          | nil => rfl
          | cons e es =>
            rw [hfd2] at hlr
            simp [List.getLast?_eq_getLast] at hlr
        have hlr2 : lastResolver t (d :: ds) = some d := by
          unfold lastResolver
          rw [hfil, hfd]
          rfl
        rw [hlr2]
        show (foldStep st d).2.find? (fun p => p.1 == t) = some (t, docTermRecord t d)
        unfold foldStep
        rw [hsem]
        exact dictUpd_find_self st.2 t (docTermRecord t d)
    · have hfil : (d :: ds).filter (fun x => extract_semester x == some t) =
          ds.filter (fun x => extract_semester x == some t) := by
        rw [List.filter_cons, if_neg (by simpa using hd)]
      have hlr2 : lastResolver t (d :: ds) = lastResolver t ds := by
        unfold lastResolver
        rw [hfil]
      rw [hlr2]
      cases hlr : lastResolver t ds with
      | some d2 => rfl
      | none =>
        show (foldStep st d).2.find? (fun p => p.1 == t) =
          st.2.find? (fun p => p.1 == t)
        unfold foldStep
        cases hsd : extract_semester d with
        | none => rfl
        | some u =>
          have hut : u ≠ t := by
            intro he
            subst he
            rw [hsd] at hd
            simp at hd
          exact dictUpd_find_other st.2 u t (docTermRecord u d) hut

theorem filter_key_unique {m : List (Int × SemRec)} {t : Int} {e : Int × SemRec}
    (hnd : (m.map Prod.fst).Nodup) (hf : m.find? (fun p => p.1 == t) = some e) :
    m.filter (fun p => p.1 == t) = [e] := by
  induction m with
  | nil => simp at hf
  | cons q qs ih =>
    simp only [List.map_cons, List.nodup_cons] at hnd
    obtain ⟨hqn, hnd2⟩ := hnd
    by_cases hq : (q.1 == t) = true
    · rw [find?_cons_pos (fun p => p.1 == t) q _ hq] at hf
      simp only [Option.some.injEq] at hf
      subst hf
      rw [List.filter_cons, if_pos hq]
      have hqs : qs.filter (fun p => p.1 == t) = [] := by
        apply List.filter_eq_nil_iff.mpr
        intro p hp hpt
        have hq2 : q.1 = t := by simpa using hq
        have hpt2 : p.1 = t := by simpa using hpt
        exact hqn (by rw [hq2, ← hpt2]; exact List.mem_map_of_mem Prod.fst hp)
      rw [hqs]
    · rw [find?_cons_neg (fun p => p.1 == t) q _ (eq_false_of_ne_true hq)] at hf
      rw [List.filter_cons, if_neg (by simpa using hq)]
      exact ih hnd2 hf

/-- C6: in every batch, the summary holds exactly one record for any term
number some document resolves to, and it is the record extracted from the
last document (in processing order) resolving to that term — full
replacement in the term map, no merge.  In particular a two-document batch
on one term keeps exactly the second document's record. -/
theorem C6_duplicate_term_replaced :
    (∀ (texts : List String) (t : Int) (d : String),
      lastResolver t texts = some d →
      (generateSummary texts).semesters.filter (fun s => s.no == t) =
        [docTermRecord t d]) ∧
    (∀ (d1 d2 : String) (t : Int), extract_semester d1 = some t →
      extract_semester d2 = some t →
      (generateSummary [d1, d2]).semesters = [docTermRecord t d2]) := by
  constructor
  · intro texts t d h
    have hfind := termMap_find_lastResolver t texts (("Student Name", "Register No"), [])
    rw [h] at hfind
    obtain ⟨hnd, hvals⟩ :=
      termMap_foldl_inv texts (("Student Name", "Register No"), []) (by simp)
    have hfil : (termMapOf texts).filter (fun p => p.1 == t) =
        [(t, docTermRecord t d)] := filter_key_unique hnd hfind
    have hvf : ((termMapOf texts).map Prod.snd).filter (fun s => s.no == t) =
        [docTermRecord t d] := by
      rw [List.filter_map]
      have hcong : (termMapOf texts).filter ((fun s => s.no == t) ∘ Prod.snd) =
          (termMapOf texts).filter (fun p => p.1 == t) := by
        apply List.filter_congr
        intro p hp
        show (p.2.no == t) = (p.1 == t)
        rw [hvals p hp]
      rw [hcong, hfil]
      rfl
    have hperm := (sortByNo_perm ((termMapOf texts).map Prod.snd)).filter
      (fun s => s.no == t)
    rw [hvf] at hperm
    have hsem : (generateSummary texts).semesters =
        sortByNo ((termMapOf texts).map Prod.snd) := rfl
    rw [hsem]
    exact List.perm_singleton.mp hperm
  · intro d1 d2 t h1 h2
    have hsem : (generateSummary [d1, d2]).semesters =
        sortByNo ((termMapOf [d1, d2]).map Prod.snd) := rfl
    rw [hsem]
    unfold termMapOf
    simp only [List.foldl_cons, List.foldl_nil]
    unfold foldStep
    rw [h1, h2]
    simp [dictUpd, sortByNo, insNo]

/-- Witness for C6: two concrete documents both resolving to term 3,
exercising both parts of the theorem. -/
theorem C6_duplicate_term_replaced_witness :
    lastResolver 3 ["SEMESTER 3\nAB123 Maths 3 O", "SEMESTER 3\nAB123 Maths 3 A"] =
        some "SEMESTER 3\nAB123 Maths 3 A" ∧
      (generateSummary ["SEMESTER 3\nAB123 Maths 3 O",
          "SEMESTER 3\nAB123 Maths 3 A"]).semesters.filter (fun s => s.no == 3) =
        [docTermRecord 3 "SEMESTER 3\nAB123 Maths 3 A"] ∧
      (generateSummary ["SEMESTER 3\nAB123 Maths 3 O",
          "SEMESTER 3\nAB123 Maths 3 A"]).semesters =
        [docTermRecord 3 "SEMESTER 3\nAB123 Maths 3 A"] :=
  ⟨by decide,
    C6_duplicate_term_replaced.1 ["SEMESTER 3\nAB123 Maths 3 O",
      "SEMESTER 3\nAB123 Maths 3 A"] 3 "SEMESTER 3\nAB123 Maths 3 A" (by decide),
    C6_duplicate_term_replaced.2 "SEMESTER 3\nAB123 Maths 3 O"
      "SEMESTER 3\nAB123 Maths 3 A" 3 (by decide) (by decide)⟩

/-- C7: the `terms` sequence of every produced summary is sorted strictly
ascending by term number, with no duplicates. -/
theorem C7_terms_strictly_sorted (texts : List String) :
    ((generateSummary texts).semesters).Pairwise (fun a b => a.no < b.no) := by
  have hsem : (generateSummary texts).semesters =
      sortByNo ((termMapOf texts).map Prod.snd) := rfl
  obtain ⟨hnd, hvals⟩ := termMap_foldl_inv texts (("Student Name", "Register No"), [])
    (by simp)
  have hnos : ((termMapOf texts).map Prod.snd).map (fun s => s.no) =
      (termMapOf texts).map Prod.fst := by
    rw [List.map_map]
    apply List.map_congr_left
    intro p hp
    exact hvals p hp
  have hnd2 : (((termMapOf texts).map Prod.snd).map (fun s => s.no)).Nodup := by
    rw [hnos]; exact hnd
  have hperm := sortByNo_perm ((termMapOf texts).map Prod.snd)
  have hnd3 : ((sortByNo ((termMapOf texts).map Prod.snd)).map (fun s => s.no)).Nodup :=
    ((hperm.map (fun s => s.no)).nodup_iff).mpr hnd2
  have hne : (sortByNo ((termMapOf texts).map Prod.snd)).Pairwise
      (fun a b => a.no ≠ b.no) := (List.pairwise_map).mp hnd3
  have hle := sortByNo_pairwise ((termMapOf texts).map Prod.snd)
  rw [hsem]
  exact (hle.and hne).imp (fun h => by omega)

/-! ### Claim theorems: term resolution and identity -/

/-- C8, counterexample: the claim says any term number returned is a positive
integer, but the label branch parses whatever digits follow `SEMESTER`, so
the text `SEMESTER 0` resolves to term 0, which is not positive. -/
theorem C8_counterexample :
    extract_semester "SEMESTER 0" = some 0 ∧ ¬ (0 : Int) > 0 := by decide

/-- C8, amended: `extract_semester` returns either `None` or a non-negative
integer parsed from the matched digit run (label branch first, subject-code
fallback second); positivity can fail since a matched digit run may encode
zero. -/
theorem C8_semester_nonneg (text : String) :
    extract_semester text = none ∨
      ∃ n : Int, extract_semester text = some n ∧ 0 ≤ n := by
  unfold extract_semester
  split
  · split
    · right
      exact ⟨_, rfl, Int.natCast_nonneg _⟩
    · left
      rfl
  · split
    · split
      · right
        exact ⟨_, rfl, Int.natCast_nonneg _⟩
      · left
        rfl
    · left
      rfl

theorem foldStep_fst (st : (String × String) × List (Int × SemRec)) (text : String) :
    (foldStep st text).1 = extract_student_details text := by
  unfold foldStep
  cases extract_semester text <;> rfl

theorem foldl_ident_last (texts : List String) (h : texts ≠ []) :
    ∀ st : (String × String) × List (Int × SemRec),
      (texts.foldl foldStep st).1 = extract_student_details (texts.getLast h) := by
  induction texts with
  | nil => exact absurd rfl h
  | cons d ds ih =>
    intro st
    rw [List.foldl_cons]
    by_cases hne : ds = []
    · subst hne
      exact foldStep_fst st d
    · have hg : (d :: ds).getLast h = ds.getLast hne := List.getLast_cons hne
      rw [hg, ← ih hne (foldStep st d)]

/-- C9: the summary's identity comes from the last document in the batch —
every document, term-resolved or not, unconditionally overwrites the running
identity — and each field of `extract_student_details` falls back to its
placeholder when its pattern finds no match. -/
theorem C9_identity_last_wins (texts : List String) (h : texts ≠ []) :
    ((generateSummary texts).name, (generateSummary texts).reg) =
        extract_student_details (texts.getLast h) ∧
      (∀ t : String, reSearch candNamePattern t.data = none →
        (extract_student_details t).1 = "Student Name") ∧
      (∀ t : String, reSearch regNoPattern t.data = none →
        (extract_student_details t).2 = "Register No") := by
  refine ⟨?_, ?_, ?_⟩
  · have hfold := foldl_ident_last texts h (("Student Name", "Register No"), [])
    have h1 : (generateSummary texts).name =
        (texts.foldl foldStep (("Student Name", "Register No"), [])).1.1 := rfl
    have h2 : (generateSummary texts).reg =
        (texts.foldl foldStep (("Student Name", "Register No"), [])).1.2 := rfl
    rw [h1, h2, hfold]
  · intro t hn
    unfold extract_student_details
    rw [hn]
  · intro t hn
    unfold extract_student_details
    rw [hn]

/-- Witness for C9: the second (last) document's term is unresolved, yet it
determines the identity; an empty text yields both placeholders. -/
theorem C9_identity_last_wins_witness :
    ((generateSummary ["SEMESTER 1\nAB123 Maths 3 O",
          "Name of the Candidate JOHN DOE Month"]).name,
        (generateSummary ["SEMESTER 1\nAB123 Maths 3 O",
          "Name of the Candidate JOHN DOE Month"]).reg) =
        extract_student_details "Name of the Candidate JOHN DOE Month" ∧
      (extract_student_details "").1 = "Student Name" :=
  ⟨(C9_identity_last_wins ["SEMESTER 1\nAB123 Maths 3 O",
      "Name of the Candidate JOHN DOE Month"] (by simp)).1,
    (C9_identity_last_wins ["x"] (by simp)).2.1 "" (by decide)⟩
